/-
Verification of the osbuild-composer device/mount stage compiler
(vendor/github.com/osbuild/images/pkg/osbuild/device.go).

The file shallowly embeds the Go source: the storage-tree data model and
the tree traversals live in the external `disk` package (not part of the
sources verified here), so they are modelled from the specification; the
functions `pathEscape`, `deviceName`, `getDevices`,
`GenDeviceCreationStages`, `GenDeviceFinishStages` and
`genMountsDevicesFromPt` are translated directly from the Go source.

Modelling conventions:
- Go `panic` is modelled as `Option.none` (an aborted computation); Go
  returned errors are modelled with an explicit error value.
- Go maps (`map[string]Device`) are modelled as association lists with
  overwrite-on-insert semantics; iteration order of an association list
  stands in for Go's unspecified map iteration order.
- Go strings are byte strings; all characters treated specially by the
  code (`/`, `\`, `-`, the four filesystem tags, the fixed names) are
  ASCII, where Lean's character-level view coincides with Go's
  byte-level view.
- Machine integers (`uint64`) are modelled as `Nat`; none of the modelled
  code paths overflow (sizes only ever get divided and printed).
-/
import Mathlib

set_option linter.unusedVariables false

/-! ## Storage-tree data model

Modelled from the spec: the partition-table data model of the external
`disk` package (§3 of the specification): a rooted tree whose nodes are
PartitionTable (root), Partition, EncryptionContainer (LUKS), VolumeGroup
with LogicalVolume children, and Mountable leaves.  The Go type system
only allows Partition directly under PartitionTable, and payloads of
partitions, LUKS containers and logical volumes are payload entities
(filesystem, LUKS container or volume group), never partitions or tables.
-/

/-- Modelled from the spec: the key-escrow (Clevis) policy of an
encryption container: pin, policy document, and whether the passphrase
should be removed at the end of the build. -/
structure ClevisConfig where
  pin : String
  policy : String
  removePassphrase : Bool
deriving DecidableEq, Repr

/-- Modelled from the spec: the scalar data of an EncryptionContainer
(disk.LUKSContainer): UUID, passphrase, cipher, label, subsystem, sector
size, Argon2id key-derivation parameters and the optional Clevis policy. -/
structure LuksData where
  uuid : String
  passphrase : String
  cipher : String
  label : String
  subsystem : String
  sectorSize : Nat
  pbkdfIterations : Nat
  pbkdfMemory : Nat
  pbkdfParallelism : Nat
  clevis : Option ClevisConfig
deriving DecidableEq, Repr

/-- Modelled from the spec: a payload entity of the storage tree: a
Mountable filesystem leaf (filesystem-type tag and mountpoint), an
encryption container wrapping a payload, or a volume group whose children
are logical volumes `(name, size in bytes, payload)`. -/
inductive Payload where
  | filesystem (fstype : String) (mountpoint : String)
  | luks (d : LuksData) (payload : Payload)
  | volgroup (vgname : String) (lvs : List (String × Nat × Payload))
deriving Repr

/-- Modelled from the spec: a disk.Partition: byte offset, byte size and
one payload entity. -/
structure PartitionData where
  start : Nat
  size : Nat
  payload : Payload
deriving Repr

/-- Modelled from the spec: a disk.PartitionTable: the sector size used
for byte-to-sector conversion and the list of partitions. -/
structure PTData where
  sectorSize : Nat
  partitions : List PartitionData
deriving Repr

/-- A node of the storage tree as seen by the traversal callbacks
(disk.Entity): the partition table, a partition, a payload entity, or a
logical volume `(name, size, payload)`. -/
inductive Entity where
  | pTable (t : PTData)
  | pPart (p : PartitionData)
  | pPayload (p : Payload)
  | pLV (lvname : String) (size : Nat) (payload : Payload)
deriving Repr

/-! ## Produced values: devices, mounts, stages -/

/-- Kind-specific options of a device descriptor.  The three kinds that
`getDevices` emits: loopback (file, start/size in sectors, lock flag),
LUKS2 open (passphrase), LVM2 logical-volume open (volume name). -/
inductive DeviceOptions where
  | loopback (filename : String) (start : Nat) (size : Nat) (lock : Bool)
  | luks2 (passphrase : String)
  | lvm2lv (volume : String)
deriving DecidableEq, Repr

/-- The `osbuild.Device` record of device.go: a type tag, an optional
parent identifier (`""` when absent) and kind-specific options (`none`
models Go's zero-value `Device` whose interface field is nil). -/
structure Device where
  type : String
  parent : String
  options : Option DeviceOptions
deriving DecidableEq, Repr

/-- Modelled from the spec: `NewLoopbackDevice` — a loopback descriptor
has no parent. -/
def NewLoopbackDevice (filename : String) (start : Nat) (size : Nat) (lock : Bool) : Device :=
  ⟨"org.osbuild.loopback", "", some (.loopback filename start size lock)⟩

/-- Modelled from the spec: `NewLUKS2Device` — an encryption-open
descriptor chained to `parent`. -/
def NewLUKS2Device (parent : String) (passphrase : String) : Device :=
  ⟨"org.osbuild.luks2", parent, some (.luks2 passphrase)⟩

/-- Modelled from the spec: `NewLVM2LVDevice` — a logical-volume-open
descriptor chained to `parent`. -/
def NewLVM2LVDevice (parent : String) (volume : String) : Device :=
  ⟨"org.osbuild.lvm2.lv", parent, some (.lvm2lv volume)⟩

/-- Modelled from the spec: a Mount Record `{kind, name,
source-device-identifier, target-path}`. -/
structure Mount where
  type : String
  name : String
  source : String
  target : String
deriving DecidableEq, Repr

/-- The options payload of the five stage kinds emitted by device.go. -/
inductive StageOptions where
  | luks2Create (uuid passphrase cipher label subsystem : String)
      (sectorSize : Nat) (pbkdfMethod : String)
      (iterations memory parallelism : Nat)
  | clevisLuksBind (passphrase pin policy : String)
  | lvm2Create (volumes : List (String × String))
  | lvm2Metadata (vgName : String)
  | luks2RemoveKey (passphrase : String)
deriving DecidableEq, Repr

/-- Modelled from the spec: an Operation (`osbuild.Stage`): a type tag,
an options payload and the map of device references. -/
structure Stage where
  type : String
  options : StageOptions
  devices : List (String × Device)
deriving DecidableEq, Repr

/-! ## Association-list operations standing in for Go maps -/

/-- `m[k]` for a Go `map[string]Device` modelled as an association list:
the value stored at the first matching key. -/
def lookupD : List (String × Device) → String → Option Device
  | [], _ => none
  | (k, v) :: rest, n => if k = n then some v else lookupD rest n

/-- `m[k] = d` for a Go map: overwrite the first binding of `k`, or
append a new binding. -/
def insertD : List (String × Device) → String → Device → List (String × Device)
  | [], n, d => [(n, d)]
  | (k, v) :: rest, n, d => if k = n then (n, d) :: rest else (k, v) :: insertD rest n d

/-- `delete(m, k)` for a Go map: drop the first binding of `k`. -/
def eraseD : List (String × Device) → String → List (String × Device)
  | [], _ => []
  | (k, v) :: rest, n => if k = n then rest else (k, v) :: eraseD rest n

/-! ## pathEscape -/

/-- `strings.Trim(path, "/")`: drop all leading and trailing `/`. -/
def trimSlashes (l : List Char) : List Char :=
  ((l.dropWhile (· = '/')).reverse.dropWhile (· = '/')).reverse

/-- `strings.ReplaceAll` for a single-character pattern: replace every
occurrence of `c` by `r`. -/
def replaceChar (c : Char) (r : List Char) : List Char → List Char
  | [] => []
  | x :: xs => (if x = c then r else [x]) ++ replaceChar c r xs

/-- `pathEscape` of device.go: the systemd-unit-style mountpoint escape.
Empty path and `/` map to `-`; otherwise trim `/` from both ends, replace
each `\` by `\x5c`, then each `-` by `\x2d`, then each remaining `/` by
`-`.  (`fmt.Sprintf("\\x%x", char[0])` on `\` yields `\x5c` and on `-`
yields `\x2d`.) -/
def pathEscape (path : String) : String :=
  if path.length = 0 ∨ path = "/" then "-"
  else
    let cs := trimSlashes path.data
    let cs := replaceChar '\\' ['\\', 'x', '5', 'c'] cs
    let cs := replaceChar '-' ['\\', 'x', '2', 'd'] cs
    ⟨replaceChar '/' ['-'] cs⟩

/-! ## deviceName -/

/-- `deviceName` of device.go, at the payload entities it is applied to
(the Go function also handles the nil and unknown-variant programming
errors, both modelled as `none`, and Mountable dispatch comes first in
the type switch).  For an encryption container the Go code takes
`payload.UUID[:4]`, which panics (modelled `none`) when the UUID is
shorter than 4 bytes. -/
def deviceNameP : Payload → Option String
  | .filesystem _ mnt => some (pathEscape mnt)
  | .luks d _ => if 4 ≤ d.uuid.length then some ("luks-" ++ d.uuid.take 4) else none
  | .volgroup n _ => some n

/-! ## getDevices -/

/-- Modelled from the spec: `disk.PartitionTable.BytesToSectors` — the
table's byte-to-sector conversion (integer division by the table's
sector size, with the conventional 512-byte default when unset). -/
def bytesToSectors (sectorSize n : Nat) : Nat :=
  n / (if sectorSize = 0 then 512 else sectorSize)

/-- The loop body state of `getDevices`: walking the remaining path with
the active partition table's sector size (`none` before a table has been
seen), the device map built so far, and the current parent identifier.
Returns `none` where the Go code panics (partition without a table, or a
`deviceName` failure). -/
def getDevicesGo (filename : String) (lock : Bool) :
    List Entity → Option Nat → List (String × Device) → String →
    Option (List (String × Device) × String)
  | [], _, m, parent => some (m, parent)
  | .pTable t :: rest, _, m, parent =>
      getDevicesGo filename lock rest (some t.sectorSize) m parent
  | .pPart pd :: rest, pt?, m, parent =>
      match pt? with
      | none => none
      | some ss =>
        match deviceNameP pd.payload with
        | none => none
        | some name =>
            getDevicesGo filename lock rest (some ss)
              (insertD m name (NewLoopbackDevice filename
                (bytesToSectors ss pd.start) (bytesToSectors ss pd.size) lock)) name
  | .pPayload (.luks d inner) :: rest, pt?, m, parent =>
      match deviceNameP inner with
      | none => none
      | some name =>
          getDevicesGo filename lock rest pt? (insertD m name (NewLUKS2Device parent d.passphrase)) name
  | .pLV lvn _ pl :: rest, pt?, m, parent =>
      match deviceNameP pl with
      | none => none
      | some name =>
          getDevicesGo filename lock rest pt? (insertD m name (NewLVM2LVDevice parent lvn)) name
  | .pPayload (.filesystem _ _) :: rest, pt?, m, parent =>
      getDevicesGo filename lock rest pt? m parent
  | .pPayload (.volgroup _ _) :: rest, pt?, m, parent =>
      getDevicesGo filename lock rest pt? m parent

/-- `getDevices` of device.go: walk a root-to-node path and return the
device map together with the identifier of the last emitted device. -/
def getDevices (path : List Entity) (filename : String) (lock : Bool) :
    Option (List (String × Device) × String) :=
  getDevicesGo filename lock path none [] ""

/-- The rename performed by every stage compiler:
`lastDevice := m[lastName]; delete(m, lastName); m["device"] = lastDevice`
(a missing `lastName` reads Go's zero `Device`). -/
def renameLast (m : List (String × Device)) (lastName : String) : List (String × Device) :=
  insertD (eraseD m lastName) "device" ((lookupD m lastName).getD ⟨"", "", none⟩)

/-! ## Tree traversals

Modelled from the spec: `disk.PartitionTable.ForEachEntity` visits every
entity of the tree in depth-first pre-order, supplying the root-to-node
path (the node itself included — device.go strips itself with
`path[:len(path)-1]`); `ForEachMountable` visits every Mountable leaf in
the same order with the same paths. -/

mutual

/-- The `(entity, root-to-node path)` pairs the entity traversal produces
for a payload subtree rooted below `path`. -/
def walkP (p : Payload) (path : List Entity) : List (Entity × List Entity) :=
  match p with
  | .filesystem _ _ => [(.pPayload p, path ++ [.pPayload p])]
  | .luks _ inner => (.pPayload p, path ++ [.pPayload p]) :: walkP inner (path ++ [.pPayload p])
  | .volgroup _ lvs => (.pPayload p, path ++ [.pPayload p]) :: walkLVs lvs (path ++ [.pPayload p])

/-- Traversal of a volume group's logical-volume children. -/
def walkLVs (lvs : List (String × Nat × Payload)) (path : List Entity) :
    List (Entity × List Entity) :=
  match lvs with
  | [] => []
  | (n, sz, pl) :: rest =>
      ((.pLV n sz pl, path ++ [.pLV n sz pl]) :: walkP pl (path ++ [.pLV n sz pl])) ++
        walkLVs rest path

end

/-- Traversal of one partition and its payload subtree. -/
def walkPart (pd : PartitionData) (path : List Entity) : List (Entity × List Entity) :=
  (.pPart pd, path ++ [.pPart pd]) :: walkP pd.payload (path ++ [.pPart pd])

/-- Traversal of a partition list. -/
def walkParts : List PartitionData → List Entity → List (Entity × List Entity)
  | [], _ => []
  | pd :: rest, path => walkPart pd path ++ walkParts rest path

/-- `ForEachEntity`: the full pre-order traversal of the tree, starting
at the partition table itself (whose path is `[table]`). -/
def walkPT (t : PTData) : List (Entity × List Entity) :=
  (.pTable t, [.pTable t]) :: walkParts t.partitions [.pTable t]

/-- Whether a traversal node is a Mountable leaf. -/
def isMountable : Entity → Bool
  | .pPayload (.filesystem _ _) => true
  | _ => false

/-- `ForEachMountable`: the Mountable leaves of the traversal, in
traversal order, each with its root-to-node path. -/
def mountables (t : PTData) : List (Entity × List Entity) :=
  (walkPT t).filter (fun pr => isMountable pr.1)

/-! ## GenDeviceCreationStages -/

/-- The body of the `genStages` callback of `GenDeviceCreationStages`:
for a LUKS container, build the chain excluding the container, rename the
last device to `"device"`, emit the luks2.format stage (PBKDF method
fixed to `"argon2id"`) and, when a Clevis policy is present, the
clevis.luks.bind stage; for a volume group, likewise emit the lvm2.create
stage whose volumes render each size as `fmt.Sprintf("%dB", lv.Size)`.
`none` models a Go panic inside `getDevices`. -/
def creationStep (filename : String) (acc : List Stage) :
    Entity × List Entity → Option (List Stage)
  | (.pPayload (.luks d _), path) =>
      match getDevices path.dropLast filename true with
      | none => none
      | some (devs, lastName) =>
        let stageDevices := renameLast devs lastName
        let fmtStage : Stage :=
          ⟨"org.osbuild.luks2.format",
            .luks2Create d.uuid d.passphrase d.cipher d.label d.subsystem d.sectorSize
              "argon2id" d.pbkdfIterations d.pbkdfMemory d.pbkdfParallelism,
            stageDevices⟩
        match d.clevis with
        | some c =>
            some (acc ++ [fmtStage,
              ⟨"org.osbuild.clevis.luks.bind", .clevisLuksBind d.passphrase c.pin c.policy,
                stageDevices⟩])
        | none => some (acc ++ [fmtStage])
  | (.pPayload (.volgroup _ lvs), path) =>
      match getDevices path.dropLast filename true with
      | none => none
      | some (devs, lastName) =>
        some (acc ++ [⟨"org.osbuild.lvm2.create",
          .lvm2Create (lvs.map fun lv => (lv.1, toString lv.2.1 ++ "B")),
          renameLast devs lastName⟩])
  | (_, _) => some acc

/-- `GenDeviceCreationStages` of device.go. -/
def GenDeviceCreationStages (t : PTData) (filename : String) : Option (List Stage) :=
  (walkPT t).foldlM (creationStep filename) []

/-! ## GenDeviceFinishStages -/

/-- The body of the `genStages` callback of `GenDeviceFinishStages`,
acting on the pair `(stages, removeKeyStages)`: volume groups append an
lvm2.metadata stage to the first list; LUKS containers whose Clevis
policy requests passphrase removal append a luks2.remove-key stage to the
separately buffered second list. -/
def finishStep (filename : String) (acc : List Stage × List Stage) :
    Entity × List Entity → Option (List Stage × List Stage)
  | (.pPayload (.luks d _), path) =>
      match getDevices path.dropLast filename true with
      | none => none
      | some (devs, lastName) =>
        match d.clevis with
        | some c =>
            if c.removePassphrase then
              some (acc.1, acc.2 ++ [⟨"org.osbuild.luks2.remove-key",
                .luks2RemoveKey d.passphrase, renameLast devs lastName⟩])
            else some acc
        | none => some acc
  | (.pPayload (.volgroup n _), path) =>
      match getDevices path.dropLast filename true with
      | none => none
      | some (devs, lastName) =>
        some (acc.1 ++ [⟨"org.osbuild.lvm2.metadata", .lvm2Metadata n,
          renameLast devs lastName⟩], acc.2)
  | (_, _) => some acc

/-- `GenDeviceFinishStages` of device.go: run the traversal, then append
the buffered remove-key stages after all metadata stages. -/
def GenDeviceFinishStages (t : PTData) (filename : String) : Option (List Stage) :=
  match (walkPT t).foldlM (finishStep filename) ([], []) with
  | none => none
  | some (stages, removeKeyStages) => some (stages ++ removeKeyStages)

/-! ## genMountsDevicesFromPt -/

/-- The filesystem-type switch of `genMountsDevicesFromPt`: the four
recognized tags map to the mount constructor of the matching kind
(`New{Xfs,FAT,Ext4,Btrfs}Mount name source target`, modelled from the
spec as records tagged with the kind); any other tag is the
`"unknown fs type"` error, modelled as `none`. -/
def mkMount (t name source target : String) : Option Mount :=
  if t = "xfs" then some ⟨"org.osbuild.xfs", name, source, target⟩
  else if t = "vfat" then some ⟨"org.osbuild.fat", name, source, target⟩
  else if t = "ext4" then some ⟨"org.osbuild.ext4", name, source, target⟩
  else if t = "btrfs" then some ⟨"org.osbuild.btrfs", name, source, target⟩
  else none

/-- The merge loop of `genMountsDevicesFromPt`: fold the per-leaf
`stageDevices` into the accumulated map; a name that already exists with
a structurally different descriptor (`!reflect.DeepEqual`) is the
collision error. -/
def mergeDevices : List (String × Device) → List (String × Device) →
    Except String (List (String × Device))
  | devices, [] => .ok devices
  | devices, (n, d) :: rest =>
      match lookupD devices n with
      | some existing =>
          if existing = d then mergeDevices (insertD devices n d) rest
          else .error ("the device name \"" ++ n ++ "\" has been generated for two different devices")
      | none => mergeDevices (insertD devices n d) rest

/-- The accumulated state of the `genMounts` callback: the merged device
map, the mount records in emission order, and `fsRootMntName` (`""`
until the root mount is seen). -/
structure MountState where
  devices : List (String × Device)
  mounts : List Mount
  fsRootMntName : String
deriving Repr

/-- The `genMounts` callback body for one Mountable leaf: build the
chain with `lockLoopback = false`, remember the last device name as the
root identifier when the mountpoint is `/`, build the mount record (or
fail on an unrecognized type), and merge the chain into the device map.
The outer `none` models a Go panic; `Except.error` a returned error. -/
def genMountsStep (filename : String) (st : MountState) :
    Entity × List Entity → Option (Except String MountState)
  | (.pPayload (.filesystem fstype mountpoint), path) =>
      match getDevices path filename false with
      | none => none
      | some (stageDevices, name) =>
        let root := if mountpoint = "/" then name else st.fsRootMntName
        match mkMount fstype name name mountpoint with
        | none => some (.error ("unknown fs type " ++ fstype))
        | some mount =>
          match mergeDevices st.devices stageDevices with
          | .error e => some (.error e)
          | .ok devs => some (.ok ⟨devs, st.mounts ++ [mount], root⟩)
  | (_, _) => some (.ok st)

/-- `ForEachMountable` applied to the `genMounts` callback: process the
leaves in order, aborting on the first error. -/
def processMountables (filename : String) :
    List (Entity × List Entity) → MountState → Option (Except String MountState)
  | [], st => some (.ok st)
  | pr :: rest, st =>
      match genMountsStep filename st pr with
      | none => none
      | some (.error e) => some (.error e)
      | some (.ok st') => processMountables filename rest st'

/-- Lexicographic strict comparison of character lists by code point —
Go's byte-wise `<` on (UTF-8) strings, whose byte-wise order coincides
with code-point order. -/
def listCharLtb : List Char → List Char → Bool
  | [], [] => false
  | [], _ :: _ => true
  | _ :: _, [] => false
  | a :: as, b :: bs =>
      if a.toNat < b.toNat then true
      else if b.toNat < a.toNat then false
      else listCharLtb as bs

/-- The comparison `genMountsDevicesFromPt` sorts by:
`mounts[i].Target < mounts[j].Target` (byte-wise string order); as the
non-strict relation handed to the sort, `a` may precede `b` when
`b.Target < a.Target` does not hold. -/
def mountTargetLe (a b : Mount) : Prop :=
  listCharLtb b.target.data a.target.data = false

instance : DecidableRel mountTargetLe := fun a b =>
  instDecidableEqBool (listCharLtb b.target.data a.target.data) false

/-- `genMountsDevicesFromPt` of device.go.  The result models the Go
quadruple `(fsRootMntName, mounts, devices, err)`: on a returned error
the Go function returns `("", nil, nil, err)`; `none` models a panic.
The final mounts are sorted by target path. -/
def genMountsDevicesFromPt (filename : String) (t : PTData) :
    Option (String × List Mount × List (String × Device) × Option String) :=
  match processMountables filename (mountables t) ⟨[], [], ""⟩ with
  | none => none
  | some (.error e) => some ("", [], [], some e)
  | some (.ok st) =>
      let sorted := List.insertionSort mountTargetLe st.mounts
      if st.fsRootMntName = "" then
        some ("", [], [], some "no mount found for the filesystem root")
      else
        some (st.fsRootMntName, sorted, st.devices, none)

/-! ## Auxiliary specification-side definitions -/

/-- The lower-case hexadecimal digit of a value below 16. -/
def hexDigit (n : Nat) : Char :=
  if n < 10 then Char.ofNat (48 + n) else Char.ofNat (87 + n)

/-- The two-hex-digit escape form `\xNN` of a character, as the spec
describes it (`fmt.Sprintf("\\x%x", char[0])` for an ASCII character). -/
def escByteForm (c : Char) : List Char :=
  ['\\', 'x', hexDigit (c.toNat / 16), hexDigit (c.toNat % 16)]

/-- The mountpoint escape as the spec words it: empty path or `/` maps to
`-`; leading/trailing `/` trimmed; `\` and `-` each replaced by their
two-hex-digit escape form (`\` escaped first); remaining `/` separators
become `-`. -/
def pathEscapeSpec (path : String) : String :=
  if path = "" ∨ path = "/" then "-"
  else
    ⟨replaceChar '/' ['-']
      (replaceChar '-' (escByteForm '-')
        (replaceChar '\\' (escByteForm '\\') (trimSlashes path.data)))⟩

example : pathEscape "/" = "-" := by decide
example : pathEscape "/boot/efi" = "boot-efi" := by decide
example : pathEscape "/a-b" = "a\\x2db" := by decide
example : pathEscape "/a\\b" = "a\\x5cb" := by decide
example :
    getDevices [.pTable ⟨512, []⟩,
      .pPart ⟨1048576, 2147483648, .filesystem "ext4" "/"⟩] "disk.img" false =
    some ([("-", NewLoopbackDevice "disk.img" 2048 4194304 false)], "-") := by decide

/-! ## Shared helper lemmas -/

/-- A fold with `Option`-valued steps preserves any invariant the step
preserves. -/
theorem foldlM_option_invariant {α β : Type} (f : β → α → Option β) (P : β → Prop)
    (hstep : ∀ acc x res, P acc → f acc x = some res → P res) :
    ∀ (l : List α) (acc res : β), P acc → List.foldlM f acc l = some res → P res := by
  intro l
  induction l with
  | nil =>
      intro acc res hP h
      have : acc = res := by simpa using h
      exact this ▸ hP
  | cons x xs ih =>
      intro acc res hP h
      rw [List.foldlM_cons] at h
      cases hf : f acc x with
      | none => rw [hf] at h; exact absurd h (by simp)
      | some acc' =>
          rw [hf] at h
          exact ih acc' res (hstep acc x acc' hP hf) h

/-- A string starting with `u` is never equal to one starting with `n`
(used to tell the three resolver error messages apart). -/
theorem append_ne_of_head_ne {a b : String} {t : String}
    (ha : a.data.head? = some 'u' ∨ a.data.head? = some 't')
    (hb : b.data.head? = some 'n') : a ++ t ≠ b := by
  intro h
  have hdata : a.data ++ t.data = b.data := by
    have := congrArg String.data h
    simpa [String.data_append] using this
  rcases ha with ha | ha <;>
  · cases a with
    | mk la =>
      cases b with
      | mk lb =>
        simp only [String.data] at hdata ha hb
        cases la with
        | nil => simp at ha
        | cons c lc =>
            cases lb with
            | nil => simp at hb
            | cons c' lc' =>
                simp only [List.head?_cons, Option.some.injEq] at ha hb
                rw [List.cons_append] at hdata
                have : c = c' := (List.cons.injEq _ _ _ _ ▸ hdata).1
                subst ha hb
                simp at this

/-- `Pairwise` from a property of all pairs of members. -/
theorem pairwise_of_all {α : Type} (r : α → α → Prop) :
    ∀ (l : List α), (∀ a ∈ l, ∀ b ∈ l, r a b) → l.Pairwise r := by
  intro l
  induction l with
  | nil => intro _; exact .nil
  | cons x xs ih =>
      intro h
      exact .cons (fun b hb => h x (by simp) b (by simp [hb]))
        (ih fun a ha b hb => h a (by simp [ha]) b (by simp [hb]))

/-- The invariant of the finish-stage fold: the immediate list holds only
lvm2.metadata stages, the buffered list only luks2.remove-key stages. -/
def FinishInv (acc : List Stage × List Stage) : Prop :=
  (∀ s ∈ acc.1, s.type = "org.osbuild.lvm2.metadata") ∧
  (∀ s ∈ acc.2, s.type = "org.osbuild.luks2.remove-key")

/-- Each finish-stage step preserves `FinishInv`. -/
theorem finishStep_types (fn : String) :
    ∀ acc pr res, FinishInv acc → finishStep fn acc pr = some res → FinishInv res := by
  rintro acc ⟨e, path⟩ res ⟨h1, h2⟩ hstep
  cases e with
  | pTable t =>
      simp only [finishStep, Option.some.injEq] at hstep
      exact hstep ▸ ⟨h1, h2⟩
  | pPart p =>
      simp only [finishStep, Option.some.injEq] at hstep
      exact hstep ▸ ⟨h1, h2⟩
  | pLV n sz pl =>
      simp only [finishStep, Option.some.injEq] at hstep
      exact hstep ▸ ⟨h1, h2⟩
  | pPayload p =>
      cases p with
      | filesystem fs mnt =>
          simp only [finishStep, Option.some.injEq] at hstep
          exact hstep ▸ ⟨h1, h2⟩
      | luks d inner =>
          simp only [finishStep] at hstep
          split at hstep
          · cases hstep
          · split at hstep
            · split at hstep
              · simp only [Option.some.injEq] at hstep
                refine hstep ▸ ⟨h1, ?_⟩
                intro s hs
                rcases List.mem_append.mp hs with hs | hs
                · exact h2 s hs
                · simp only [List.mem_singleton] at hs
                  rw [hs]
              · simp only [Option.some.injEq] at hstep
                exact hstep ▸ ⟨h1, h2⟩
            · simp only [Option.some.injEq] at hstep
              exact hstep ▸ ⟨h1, h2⟩
      | volgroup n lvs =>
          simp only [finishStep] at hstep
          split at hstep
          · cases hstep
          · simp only [Option.some.injEq] at hstep
            refine hstep ▸ ⟨?_, h2⟩
            intro s hs
            rcases List.mem_append.mp hs with hs | hs
            · exact h1 s hs
            · simp only [List.mem_singleton] at hs
              rw [hs]

/-- C1.  For every storage tree and filename, in the sequence returned
by `GenDeviceFinishStages`, every luks2.remove-key stage appears strictly
after every lvm2.metadata stage: no remove-key stage is ever followed by
a metadata stage. -/
theorem finish_remove_key_after_metadata (t : PTData) (fn : String) (stages : List Stage)
    (h : GenDeviceFinishStages t fn = some stages) :
    stages.Pairwise (fun a b =>
      ¬(a.type = "org.osbuild.luks2.remove-key" ∧ b.type = "org.osbuild.lvm2.metadata")) := by
  unfold GenDeviceFinishStages at h
  cases hf : (walkPT t).foldlM (finishStep fn) ([], []) with
  | none => rw [hf] at h; cases h
  | some p =>
      rw [hf] at h
      rcases p with ⟨s, r⟩
      simp only [Option.some.injEq] at h
      obtain ⟨hs, hr⟩ :=
        foldlM_option_invariant (finishStep fn) FinishInv (finishStep_types fn)
          (walkPT t) ([], []) (s, r) ⟨(by simp), (by simp)⟩ hf
      subst h
      rw [List.pairwise_append]
      refine ⟨?_, ?_, ?_⟩
      · refine pairwise_of_all _ s (fun a ha b hb => ?_)
        rintro ⟨hak, _⟩
        rw [hs a ha] at hak
        exact absurd hak (by decide)
      · refine pairwise_of_all _ r (fun a ha b hb => ?_)
        rintro ⟨_, hbm⟩
        rw [hr b hb] at hbm
        exact absurd hbm (by decide)
      · intro a ha b hb
        rintro ⟨_, hbm⟩
        rw [hr b hb] at hbm
        exact absurd hbm (by decide)

/-- A concrete tree exercising C1: an encrypted volume group with
passphrase removal requested. -/
def fTreeC1 : PTData :=
  ⟨512, [⟨1048576, 2147483648,
    .luks ⟨"abcd1234-1111-2222-3333-444455556666", "pw", "aes-xts-plain64", "crypt", "sub",
      512, 4, 32, 1, some ⟨"tpm2", "p", true⟩⟩
      (.volgroup "vg00" [("lv_root", 2147483648, .filesystem "ext4" "/")])⟩]⟩

/-- Witness for C1 at a concrete tree. -/
theorem finish_remove_key_after_metadata_witness :
    ((GenDeviceFinishStages fTreeC1 "disk.img").getD []).Pairwise (fun a b =>
      ¬(a.type = "org.osbuild.luks2.remove-key" ∧ b.type = "org.osbuild.lvm2.metadata")) :=
  finish_remove_key_after_metadata fTreeC1 "disk.img" _ (by rfl)

/-- C10.  `deviceName` on an encryption container unconditionally slices
the first four characters of the UUID: with a UUID of length at least 4
the result is `luks-` followed by those characters (the error branch is
unreachable), and with a shorter UUID the slice is a fatal failure
(modelled `none`), not a returned error. -/
theorem deviceName_luks_uuid (d : LuksData) (p : Payload) :
    (4 ≤ d.uuid.length → deviceNameP (.luks d p) = some ("luks-" ++ d.uuid.take 4)) ∧
    (d.uuid.length < 4 → deviceNameP (.luks d p) = none) := by
  constructor
  · intro h
    simp [deviceNameP, h]
  · intro h
    simp [deviceNameP, Nat.not_le.mpr h]

/-- Witness for C10: a well-formed UUID and a 3-character UUID. -/
theorem deviceName_luks_uuid_witness :
    deviceNameP (.luks ⟨"abcd1234-1111-2222-3333-444455556666", "pw", "c", "l", "s",
        512, 4, 32, 1, none⟩ (.filesystem "ext4" "/")) = some "luks-abcd" ∧
    deviceNameP (.luks ⟨"abc", "pw", "c", "l", "s", 512, 4, 32, 1, none⟩
        (.filesystem "ext4" "/")) = none := by
  constructor
  · exact (deviceName_luks_uuid
      ⟨"abcd1234-1111-2222-3333-444455556666", "pw", "c", "l", "s", 512, 4, 32, 1, none⟩
      (.filesystem "ext4" "/")).1 (by decide)
  · exact (deviceName_luks_uuid
      ⟨"abc", "pw", "c", "l", "s", 512, 4, 32, 1, none⟩
      (.filesystem "ext4" "/")).2 (by decide)

/-- C8.  `pathEscape` implements exactly the transform the specification
describes: empty path and `/` map to `-`; otherwise leading/trailing `/`
are trimmed, `\` is replaced by its two-hex-digit escape form first, then
`-` by its escape form (so escape sequences introduced by the first
replacement are not re-escaped), and finally every remaining `/` becomes
`-`. -/
theorem pathEscape_eq_spec (p : String) : pathEscape p = pathEscapeSpec p := by
  have hb : escByteForm '\\' = ['\\', 'x', '5', 'c'] := by decide
  have hd : escByteForm '-' = ['\\', 'x', '2', 'd'] := by decide
  have hlen : p.length = 0 ↔ p = "" := by
    constructor
    · intro h
      exact String.ext (List.length_eq_zero.mp h)
    · intro h
      rw [h]
      rfl
  unfold pathEscape pathEscapeSpec
  rw [hb, hd]
  by_cases h0 : p = ""
  · simp [h0]
  · by_cases h1 : p = "/"
    · simp [h1]
    · rw [if_neg (by rw [hlen]; tauto), if_neg (by tauto)]

/-! ## C7: creation stages -/

/-- The LUKS container of the specification's creation scenario. -/
def c7Luks : LuksData :=
  ⟨"abcd1234-1111-2222-3333-444455556666", "pw", "aes-xts-plain64", "crypt", "sub",
    512, 4, 32, 1, none⟩

/-- The specification's creation scenario: an encryption container
wrapping volume group `vg00` with one 2 GiB logical volume `lv_root`. -/
def c7Tree : PTData :=
  ⟨512, [⟨1048576, 2147483648,
    .luks c7Luks (.volgroup "vg00" [("lv_root", 2147483648, .filesystem "ext4" "/")])⟩]⟩

/-- The invariant of the creation-stage fold: every lvm2.create stage
renders each volume size as a decimal byte count with a `B` suffix. -/
def CreationSizesInv (acc : List Stage) : Prop :=
  ∀ s ∈ acc, ∀ vols, s.options = .lvm2Create vols →
    ∀ v ∈ vols, ∃ sz : Nat, v.2 = toString sz ++ "B"

/-- Each creation-stage step preserves `CreationSizesInv`. -/
theorem creationStep_sizes (fn : String) :
    ∀ acc pr res, CreationSizesInv acc → creationStep fn acc pr = some res →
      CreationSizesInv res := by
  rintro acc ⟨e, path⟩ res hP hstep
  cases e with
  | pTable t =>
      simp only [creationStep, Option.some.injEq] at hstep
      exact hstep ▸ hP
  | pPart p =>
      simp only [creationStep, Option.some.injEq] at hstep
      exact hstep ▸ hP
  | pLV n sz pl =>
      simp only [creationStep, Option.some.injEq] at hstep
      exact hstep ▸ hP
  | pPayload p =>
      cases p with
      | filesystem fs mnt =>
          simp only [creationStep, Option.some.injEq] at hstep
          exact hstep ▸ hP
      | luks d inner =>
          simp only [creationStep] at hstep
          split at hstep
          · cases hstep
          · split at hstep
            · simp only [Option.some.injEq] at hstep
              subst hstep
              intro s hs vols hvols v hv
              rcases List.mem_append.mp hs with hs | hs
              · exact hP s hs vols hvols v hv
              · simp only [List.mem_cons, List.not_mem_nil, or_false] at hs
                rcases hs with hs | hs <;> (subst hs; simp at hvols)
            · simp only [Option.some.injEq] at hstep
              subst hstep
              intro s hs vols hvols v hv
              rcases List.mem_append.mp hs with hs | hs
              · exact hP s hs vols hvols v hv
              · simp only [List.mem_singleton] at hs
                subst hs
                simp at hvols
      | volgroup n lvs =>
          simp only [creationStep] at hstep
          split at hstep
          · cases hstep
          · simp only [Option.some.injEq] at hstep
            subst hstep
            intro s hs vols hvols v hv
            rcases List.mem_append.mp hs with hs | hs
            · exact hP s hs vols hvols v hv
            · simp only [List.mem_singleton] at hs
              subst hs
              dsimp only at hvols
              simp only [StageOptions.lvm2Create.injEq] at hvols
              subst hvols
              rcases List.mem_map.mp hv with ⟨lv, hlv, hveq⟩
              exact ⟨lv.2.1, by rw [← hveq]⟩

/-- C7.  On the specification's scenario tree, `GenDeviceCreationStages`
returns exactly the luks2.format stage (device map binding the key
`"device"`, cipher and label copied verbatim) followed by the
lvm2.create stage listing `{name: "lv_root", size: "2147483648B"}`; and
in general every logical-volume size in any lvm2.create stage is
rendered as its decimal byte count with a `B` suffix. -/
theorem creation_scenario_and_size_rendering :
    GenDeviceCreationStages c7Tree "disk.img" = some
      [⟨"org.osbuild.luks2.format",
        .luks2Create "abcd1234-1111-2222-3333-444455556666" "pw" "aes-xts-plain64"
          "crypt" "sub" 512 "argon2id" 4 32 1,
        [("device", ⟨"org.osbuild.loopback", "",
          some (.loopback "disk.img" 2048 4194304 true)⟩)]⟩,
       ⟨"org.osbuild.lvm2.create",
        .lvm2Create [("lv_root", "2147483648B")],
        [("luks-abcd", ⟨"org.osbuild.loopback", "",
            some (.loopback "disk.img" 2048 4194304 true)⟩),
         ("device", ⟨"org.osbuild.luks2", "luks-abcd", some (.luks2 "pw")⟩)]⟩] ∧
    ∀ (t : PTData) (fn : String) (stages : List Stage),
      GenDeviceCreationStages t fn = some stages →
      ∀ s ∈ stages, ∀ vols, s.options = .lvm2Create vols →
        ∀ v ∈ vols, ∃ sz : Nat, v.2 = toString sz ++ "B" := by
  constructor
  · rfl
  · intro t fn stages h
    exact foldlM_option_invariant (creationStep fn) CreationSizesInv (creationStep_sizes fn)
      (walkPT t) [] stages (by intro s hs; cases hs) h

/-- Witness for C7's general clause at the scenario tree. -/
theorem creation_size_rendering_witness :
    ∃ sz : Nat, (("lv_root", "2147483648B") : String × String).2 = toString sz ++ "B" :=
  creation_scenario_and_size_rendering.2 c7Tree "disk.img" _ (by rfl)
    ⟨"org.osbuild.lvm2.create", .lvm2Create [("lv_root", "2147483648B")],
      [("luks-abcd", ⟨"org.osbuild.loopback", "",
          some (.loopback "disk.img" 2048 4194304 true)⟩),
       ("device", ⟨"org.osbuild.luks2", "luks-abcd", some (.luks2 "pw")⟩)]⟩
    (by decide) [("lv_root", "2147483648B")] (by rfl) ("lv_root", "2147483648B") (by decide)

/-! ## C4: filesystem-type recognition -/

/-- A successful mount construction pins the tag to one of the four
recognized filesystem types. -/
theorem mkMount_some_types (t n s tg : String) (m : Mount)
    (h : mkMount t n s tg = some m) :
    t = "xfs" ∨ t = "vfat" ∨ t = "ext4" ∨ t = "btrfs" := by
  unfold mkMount at h
  split at h
  · left; assumption
  · split at h
    · right; left; assumption
    · split at h
      · right; right; left; assumption
      · split at h
        · right; right; right; assumption
        · cases h

/-- A mountables fold that succeeds has passed every leaf through the
filesystem-type switch. -/
theorem processMountables_types (fn : String) :
    ∀ (l : List (Entity × List Entity)) (st₀ st : MountState),
      processMountables fn l st₀ = some (.ok st) →
      ∀ fs mnt path, (Entity.pPayload (.filesystem fs mnt), path) ∈ l →
        (fs = "xfs" ∨ fs = "vfat" ∨ fs = "ext4" ∨ fs = "btrfs") := by
  intro l
  induction l with
  | nil =>
      intro st₀ st h fs mnt path hm
      cases hm
  | cons pr rest ih =>
      intro st₀ st h fs mnt path hm
      simp only [processMountables] at h
      split at h
      · cases h
      · cases h
      · rename_i st' hstep
        rcases List.mem_cons.mp hm with hm | hm
        · subst hm
          simp only [genMountsStep] at hstep
          split at hstep
          · cases hstep
          · split at hstep
            · cases hstep
            · rename_i mount hmk
              exact mkMount_some_types _ _ _ _ _ hmk
        · exact ih st' st h fs mnt path hm

/-- The specification's unsupported-filesystem scenario tree: one leaf
tagged `zfs`. -/
def zfsTree : PTData := ⟨512, [⟨0, 512, .filesystem "zfs" "/"⟩]⟩

/-- C4.  The resolver recognizes exactly the four tags `xfs`, `vfat`,
`ext4`, `btrfs`, each producing a mount record of the matching kind; any
other tag fails with an error naming the offending type string, and an
erroring resolve returns no mount records and no device mapping
(witnessed by the `zfs` scenario); a resolve that succeeds has only
recognized tags on its leaves. -/
theorem fstype_recognition :
    (∀ n s tg : String,
      mkMount "xfs" n s tg = some ⟨"org.osbuild.xfs", n, s, tg⟩ ∧
      mkMount "vfat" n s tg = some ⟨"org.osbuild.fat", n, s, tg⟩ ∧
      mkMount "ext4" n s tg = some ⟨"org.osbuild.ext4", n, s, tg⟩ ∧
      mkMount "btrfs" n s tg = some ⟨"org.osbuild.btrfs", n, s, tg⟩) ∧
    (∀ t n s tg : String, ¬(t = "xfs" ∨ t = "vfat" ∨ t = "ext4" ∨ t = "btrfs") →
      mkMount t n s tg = none) ∧
    (∀ (fn : String) (t : PTData) (r : String) (ms : List Mount)
        (ds : List (String × Device)),
      genMountsDevicesFromPt fn t = some (r, ms, ds, none) →
      ∀ fs mnt path, (Entity.pPayload (.filesystem fs mnt), path) ∈ mountables t →
        (fs = "xfs" ∨ fs = "vfat" ∨ fs = "ext4" ∨ fs = "btrfs")) ∧
    genMountsDevicesFromPt "disk.img" zfsTree =
      some ("", [], [], some "unknown fs type zfs") := by
  refine ⟨?_, ?_, ?_, by rfl⟩
  · intro n s tg
    refine ⟨rfl, ?_, ?_, ?_⟩ <;> simp [mkMount]
  · intro t n s tg ht
    push_neg at ht
    obtain ⟨h1, h2, h3, h4⟩ := ht
    simp [mkMount, h1, h2, h3, h4]
  · intro fn t r ms ds h fs mnt path hm
    unfold genMountsDevicesFromPt at h
    split at h
    · cases h
    · simp only [Option.some.injEq, Prod.mk.injEq] at h
      exact absurd h.2.2.2 (by simp)
    · rename_i st hok
      split at h
      · simp only [Option.some.injEq, Prod.mk.injEq] at h
        exact absurd h.2.2.2 (by simp)
      · exact processMountables_types fn (mountables t) ⟨[], [], ""⟩ st hok fs mnt path hm

/-- Witness for C4: the unrecognized tag `zfs` maps to no mount record. -/
theorem fstype_recognition_witness : mkMount "zfs" "a" "a" "/" = none :=
  fstype_recognition.2.1 "zfs" "a" "a" "/" (by decide)

/-! ## C2: device-name collisions -/

/-- Lookup at the head key. -/
theorem lookupD_cons_self (k : String) (v : Device) (m : List (String × Device)) :
    lookupD ((k, v) :: m) k = some v := by
  simp [lookupD]

/-- Lookup past a different head key. -/
theorem lookupD_cons_ne (k n : String) (v : Device) (m : List (String × Device))
    (h : k ≠ n) : lookupD ((k, v) :: m) n = lookupD m n := by
  simp [lookupD, h]

/-- Inserting under a different key leaves a lookup unchanged. -/
theorem lookupD_insertD_ne (m : List (String × Device)) (k n : String) (v : Device)
    (h : n ≠ k) : lookupD (insertD m k v) n = lookupD m n := by
  have h' : k ≠ n := Ne.symm h
  induction m with
  | nil => simp [insertD, lookupD, h']
  | cons p rest ih =>
      rcases p with ⟨k', v'⟩
      by_cases hk : k' = k
      · rw [hk]
        simp only [insertD, eq_self_iff_true, if_true]
        rw [lookupD_cons_ne k n v rest h', lookupD_cons_ne k n v' rest h']
      · simp only [insertD, if_neg hk]
        by_cases hn : k' = n
        · rw [hn]
          rw [lookupD_cons_self n v' (insertD rest k v), lookupD_cons_self n v' rest]
        · rw [lookupD_cons_ne k' n v' (insertD rest k v) hn,
            lookupD_cons_ne k' n v' rest hn]
          exact ih

/-- A successful lookup means the key occurs in the list. -/
theorem lookupD_some_mem (m : List (String × Device)) (n : String) (d : Device)
    (h : lookupD m n = some d) : n ∈ m.map Prod.fst := by
  induction m with
  | nil => cases h
  | cons p rest ih =>
      rcases p with ⟨k, v⟩
      by_cases hk : k = n
      · rw [hk]
        simp
      · rw [lookupD_cons_ne k n v rest hk] at h
        simp only [List.map_cons, List.mem_cons]
        exact Or.inr (ih h)

/-- The collision error message for a device name. -/
def collisionMsg (n : String) : String :=
  "the device name \"" ++ n ++ "\" has been generated for two different devices"

/-- The two-sided characterization of the merge loop on an input whose
keys are distinct (as those of a Go map always are): success happens
exactly when every already-present name carries a structurally identical
descriptor, and failure produces the collision message of a genuinely
colliding name. -/
theorem mergeDevices_characterization :
    ∀ (sd devs : List (String × Device)), (sd.map Prod.fst).Nodup →
    (∀ res, mergeDevices devs sd = .ok res →
      ∀ n d e, lookupD sd n = some d → lookupD devs n = some e → d = e) ∧
    (∀ msg, mergeDevices devs sd = .error msg →
      ∃ n d e, lookupD sd n = some d ∧ lookupD devs n = some e ∧ d ≠ e ∧
        msg = collisionMsg n) := by
  intro sd
  induction sd with
  | nil =>
      intro devs hnd
      constructor
      · intro res hok n d e hsd hdevs
        cases hsd
      · intro msg herr
        cases herr
  | cons p rest ih =>
      rcases p with ⟨n₀, d₀⟩
      intro devs hnd
      have hnd' : (rest.map Prod.fst).Nodup := (List.nodup_cons.mp hnd).2
      have hn₀ : n₀ ∉ rest.map Prod.fst := (List.nodup_cons.mp hnd).1
      constructor
      · intro res hok n d e hsd hdevs
        simp only [mergeDevices] at hok
        split at hok
        · rename_i existing hex
          split at hok
          · rename_i heq
            by_cases hn : n₀ = n
            · rw [← hn] at hsd hdevs
              rw [lookupD_cons_self n₀ d₀ rest] at hsd
              rw [hex] at hdevs
              cases hsd
              cases hdevs
              rw [heq]
            · rw [lookupD_cons_ne n₀ n d₀ rest hn] at hsd
              have := (ih (insertD devs n₀ d₀) hnd').1 res hok n d e hsd
              rw [lookupD_insertD_ne devs n₀ n d₀ (Ne.symm hn)] at this
              exact this hdevs
          · cases hok
        · rename_i hex
          by_cases hn : n₀ = n
          · rw [← hn] at hdevs
            rw [hex] at hdevs
            cases hdevs
          · rw [lookupD_cons_ne n₀ n d₀ rest hn] at hsd
            have := (ih (insertD devs n₀ d₀) hnd').1 res hok n d e hsd
            rw [lookupD_insertD_ne devs n₀ n d₀ (Ne.symm hn)] at this
            exact this hdevs
      · intro msg herr
        simp only [mergeDevices] at herr
        split at herr
        · rename_i existing hex
          split at herr
          · rename_i heq
            obtain ⟨n, d, e, hsd, hdevs, hne, hmsg⟩ :=
              (ih (insertD devs n₀ d₀) hnd').2 msg herr
            have hn : n ≠ n₀ := fun hc =>
              hn₀ (hc ▸ lookupD_some_mem rest n d hsd)
            refine ⟨n, d, e, ?_, ?_, hne, hmsg⟩
            · rw [lookupD_cons_ne n₀ n d₀ rest (Ne.symm hn)]
              exact hsd
            · rw [← lookupD_insertD_ne devs n₀ n d₀ hn]
              exact hdevs
          · rename_i hne
            simp only [Except.error.injEq] at herr
            exact ⟨n₀, d₀, existing, lookupD_cons_self n₀ d₀ rest, hex,
              fun hc => hne (hc ▸ rfl), herr.symm⟩
        · rename_i hex
          obtain ⟨n, d, e, hsd, hdevs, hne, hmsg⟩ :=
            (ih (insertD devs n₀ d₀) hnd').2 msg herr
          have hn : n ≠ n₀ := fun hc =>
            hn₀ (hc ▸ lookupD_some_mem rest n d hsd)
          refine ⟨n, d, e, ?_, ?_, hne, hmsg⟩
          · rw [lookupD_cons_ne n₀ n d₀ rest (Ne.symm hn)]
            exact hsd
          · rw [← lookupD_insertD_ne devs n₀ n d₀ hn]
            exact hdevs

/-- The collision scenario: mountpoints `/a` and `//a` escape to the same
device name `a` on two different partitions. -/
def collTree : PTData :=
  ⟨512, [⟨0, 512, .filesystem "ext4" "/a"⟩, ⟨512, 512, .filesystem "ext4" "//a"⟩]⟩

/-- C2.  Merging a device chain into the accumulated mapping succeeds
exactly when every name that already exists carries a structurally
identical descriptor; a differing descriptor fails with the collision
error naming the colliding device name; and an erroring resolve returns
no root, no mount records and no device mapping (the concrete collision
scenario is evaluated in full). -/
theorem resolve_collision_detection :
    (∀ (sd devs : List (String × Device)), (sd.map Prod.fst).Nodup →
      (∀ res, mergeDevices devs sd = .ok res →
        ∀ n d e, lookupD sd n = some d → lookupD devs n = some e → d = e) ∧
      (∀ msg, mergeDevices devs sd = .error msg →
        ∃ n d e, lookupD sd n = some d ∧ lookupD devs n = some e ∧ d ≠ e ∧
          msg = collisionMsg n)) ∧
    (∀ (fn : String) (t : PTData) (r : String) (ms : List Mount)
        (ds : List (String × Device)) (emsg : String),
      genMountsDevicesFromPt fn t = some (r, ms, ds, some emsg) →
      r = "" ∧ ms = [] ∧ ds = []) ∧
    genMountsDevicesFromPt "disk.img" collTree = some ("", [], [], some (collisionMsg "a")) := by
  refine ⟨mergeDevices_characterization, ?_, by rfl⟩
  intro fn t r ms ds emsg h
  unfold genMountsDevicesFromPt at h
  split at h
  · cases h
  · simp only [Option.some.injEq, Prod.mk.injEq] at h
    exact ⟨h.1.symm, h.2.1.symm, h.2.2.1.symm⟩
  · split at h
    · simp only [Option.some.injEq, Prod.mk.injEq] at h
      exact ⟨h.1.symm, h.2.1.symm, h.2.2.1.symm⟩
    · simp only [Option.some.injEq, Prod.mk.injEq] at h
      exact absurd h.2.2.2 (by simp)

/-- Witness for C2 at a concrete colliding pair of maps. -/
theorem resolve_collision_detection_witness :
    ∃ n d e, lookupD [("a", NewLoopbackDevice "disk.img" 1 1 false)] n = some d ∧
      lookupD [("a", NewLoopbackDevice "disk.img" 0 1 false)] n = some e ∧ d ≠ e ∧
      collisionMsg "a" = collisionMsg n :=
  ((resolve_collision_detection.1
      [("a", NewLoopbackDevice "disk.img" 1 1 false)]
      [("a", NewLoopbackDevice "disk.img" 0 1 false)] (by decide)).2
    (collisionMsg "a") (by rfl))

/-! ## C5: root-mount detection -/

/-- Every merge error is a collision message. -/
theorem mergeDevices_error_form :
    ∀ (sd devs : List (String × Device)) (msg : String),
      mergeDevices devs sd = .error msg → ∃ n, msg = collisionMsg n := by
  intro sd
  induction sd with
  | nil =>
      intro devs msg h
      cases h
  | cons p rest ih =>
      rcases p with ⟨n₀, d₀⟩
      intro devs msg h
      simp only [mergeDevices] at h
      split at h
      · split at h
        · exact ih (insertD devs n₀ d₀) msg h
        · simp only [Except.error.injEq] at h
          exact ⟨n₀, h.symm⟩
      · exact ih (insertD devs n₀ d₀) msg h

/-- Every error produced while processing the mountable leaves is either
an unknown-filesystem error or a collision message. -/
theorem processMountables_error_form (fn : String) :
    ∀ (l : List (Entity × List Entity)) (st : MountState) (e : String),
      processMountables fn l st = some (.error e) →
      (∃ ty, e = "unknown fs type " ++ ty) ∨ ∃ n, e = collisionMsg n := by
  intro l
  induction l with
  | nil =>
      intro st e h
      cases h
  | cons pr rest ih =>
      intro st e h
      simp only [processMountables] at h
      split at h
      · cases h
      · rename_i e' hstep
        simp only [Option.some.injEq, Except.error.injEq] at h
        subst h
        rcases pr with ⟨ent, path⟩
        cases ent with
        | pTable t => simp [genMountsStep] at hstep
        | pPart p => simp [genMountsStep] at hstep
        | pLV n sz pl => simp [genMountsStep] at hstep
        | pPayload p =>
            cases p with
            | luks d inner => simp [genMountsStep] at hstep
            | volgroup n lvs => simp [genMountsStep] at hstep
            | filesystem fs mnt =>
                simp only [genMountsStep] at hstep
                split at hstep
                · cases hstep
                · split at hstep
                  · simp only [Option.some.injEq, Except.error.injEq] at hstep
                    exact Or.inl ⟨fs, hstep.symm⟩
                  · split at hstep
                    · rename_i hmerge
                      simp only [Option.some.injEq, Except.error.injEq] at hstep
                      subst hstep
                      exact Or.inr (mergeDevices_error_form _ _ _ hmerge)
                    · cases hstep
      · rename_i st' hstep
        exact ih st' e h

/-- Neither a leaf error message is the missing-root message. -/
theorem leaf_error_ne_root (e : String)
    (h : (∃ ty, e = "unknown fs type " ++ ty) ∨ ∃ n, e = collisionMsg n) :
    e ≠ "no mount found for the filesystem root" := by
  rcases h with ⟨ty, h⟩ | ⟨n, h⟩
  · subst h
    exact append_ne_of_head_ne (Or.inl rfl) rfl
  · subst h
    unfold collisionMsg
    rw [String.append_assoc]
    exact append_ne_of_head_ne (Or.inr rfl) rfl

/-- Whether a traversal node is the root Mountable leaf. -/
def isRootPr (pr : Entity × List Entity) : Bool :=
  match pr.1 with
  | .pPayload (.filesystem _ mnt) => mnt = "/"
  | _ => false

/-- Root tracking through the mountables fold: with no root leaf the
recorded name is untouched; with exactly one root leaf the recorded name
is the last-device identifier of that leaf's chain. -/
theorem processMountables_root (fn : String) :
    ∀ (l : List (Entity × List Entity)) (st₀ st : MountState),
      processMountables fn l st₀ = some (.ok st) →
      (l.filter isRootPr = [] → st.fsRootMntName = st₀.fsRootMntName) ∧
      (∀ pr, l.filter isRootPr = [pr] →
        ∃ sd, getDevices pr.2 fn false = some sd ∧ st.fsRootMntName = sd.2) := by
  intro l
  induction l with
  | nil =>
      intro st₀ st h
      simp only [processMountables, Option.some.injEq, Except.ok.injEq] at h
      subst h
      exact ⟨fun _ => rfl, fun pr hpr => by cases hpr⟩
  | cons pr rest ih =>
      intro st₀ st h
      simp only [processMountables] at h
      split at h
      · cases h
      · cases h
      · rename_i st₁ hstep
        rcases pr with ⟨ent, path⟩
        cases ent with
        | pTable t =>
            simp only [genMountsStep, Option.some.injEq, Except.ok.injEq] at hstep
            subst hstep
            simpa [List.filter, isRootPr] using ih _ st h
        | pPart p =>
            simp only [genMountsStep, Option.some.injEq, Except.ok.injEq] at hstep
            subst hstep
            simpa [List.filter, isRootPr] using ih _ st h
        | pLV n sz pl =>
            simp only [genMountsStep, Option.some.injEq, Except.ok.injEq] at hstep
            subst hstep
            simpa [List.filter, isRootPr] using ih _ st h
        | pPayload p =>
            cases p with
            | luks d inner =>
                simp only [genMountsStep, Option.some.injEq, Except.ok.injEq] at hstep
                subst hstep
                simpa [List.filter, isRootPr] using ih _ st h
            | volgroup n lvs =>
                simp only [genMountsStep, Option.some.injEq, Except.ok.injEq] at hstep
                subst hstep
                simpa [List.filter, isRootPr] using ih _ st h
            | filesystem fs mnt =>
                simp only [genMountsStep] at hstep
                split at hstep
                · cases hstep
                · rename_i stageDevs lastName hgd
                  split at hstep
                  · cases hstep
                  · split at hstep
                    · cases hstep
                    · simp only [Option.some.injEq, Except.ok.injEq] at hstep
                      by_cases hroot : mnt = "/"
                      · subst hroot
                        have hst₁ : st₁.fsRootMntName = lastName := by
                          rw [← hstep]
                          simp
                        have hfil :
                            ((Entity.pPayload (.filesystem fs "/"), path) :: rest).filter isRootPr
                              = (Entity.pPayload (.filesystem fs "/"), path) ::
                                  rest.filter isRootPr := by
                          simp [isRootPr]
                        constructor
                        · intro h0
                          rw [hfil] at h0
                          cases h0
                        · intro pr hpr
                          rw [hfil] at hpr
                          have hpr1 := List.cons_eq_cons.mp hpr
                          refine ⟨(stageDevs, lastName), ?_, ?_⟩
                          · rw [← hpr1.1]
                            exact hgd
                          · rw [(ih _ st h).1 hpr1.2, hst₁]
                      · have hst₁ : st₁.fsRootMntName = st₀.fsRootMntName := by
                          rw [← hstep]
                          simp [hroot]
                        have hfil :
                            ((Entity.pPayload (.filesystem fs mnt), path) :: rest).filter isRootPr
                              = rest.filter isRootPr := by
                          simp [isRootPr, hroot]
                        constructor
                        · intro h0
                          rw [hfil] at h0
                          rw [(ih _ st h).1 h0, hst₁]
                        · intro pr hpr
                          rw [hfil] at hpr
                          exact (ih _ st h).2 pr hpr

/-- A one-partition tree with an ext4 root filesystem. -/
def c5Tree : PTData := ⟨512, [⟨0, 1024, .filesystem "ext4" "/"⟩]⟩

/-- C5.  The resolver returns the missing-root error exactly when the
leaf fold succeeded with no root mount recorded; and on success with
exactly one `/` leaf, the returned root identifier is the last-device
identifier of that leaf's chain. -/
theorem resolve_root_detection (fn : String) (t : PTData) :
    (∀ (r : String) (ms : List Mount) (ds : List (String × Device)) (e : Option String),
      genMountsDevicesFromPt fn t = some (r, ms, ds, e) →
      (e = some "no mount found for the filesystem root" ↔
        ∃ st, processMountables fn (mountables t) ⟨[], [], ""⟩ = some (.ok st) ∧
          st.fsRootMntName = "")) ∧
    (∀ (r : String) (ms : List Mount) (ds : List (String × Device))
        (pr : Entity × List Entity),
      genMountsDevicesFromPt fn t = some (r, ms, ds, none) →
      (mountables t).filter isRootPr = [pr] →
      ∃ sd, getDevices pr.2 fn false = some sd ∧ r = sd.2) := by
  constructor
  · intro r ms ds e h
    unfold genMountsDevicesFromPt at h
    split at h
    · cases h
    · rename_i e' herr
      simp only [Option.some.injEq, Prod.mk.injEq] at h
      constructor
      · intro he
        exfalso
        have hne := leaf_error_ne_root e' (processMountables_error_form fn _ _ _ herr)
        rw [← h.2.2.2] at he
        exact hne (Option.some.injEq e' _ |>.mp he)
      · rintro ⟨st, hok, hroot⟩
        rw [herr] at hok
        simp at hok
    · rename_i st hok
      split at h
      · rename_i hroot0
        simp only [Option.some.injEq, Prod.mk.injEq] at h
        constructor
        · intro _
          exact ⟨st, hok, hroot0⟩
        · intro _
          rw [← h.2.2.2]
      · rename_i hroot0
        simp only [Option.some.injEq, Prod.mk.injEq] at h
        constructor
        · intro he
          rw [← h.2.2.2] at he
          cases he
        · rintro ⟨st', hok', hroot'⟩
          exfalso
          have hst : st = st' := by
            have := hok.symm.trans hok'
            simpa using this
          rw [← hst] at hroot'
          exact hroot0 hroot'
  · intro r ms ds pr h hfil
    unfold genMountsDevicesFromPt at h
    split at h
    · cases h
    · simp only [Option.some.injEq, Prod.mk.injEq] at h
      exact absurd h.2.2.2 (by simp)
    · rename_i st hok
      split at h
      · simp only [Option.some.injEq, Prod.mk.injEq] at h
        exact absurd h.2.2.2 (by simp)
      · simp only [Option.some.injEq, Prod.mk.injEq] at h
        obtain ⟨sd, hgd, hname⟩ := (processMountables_root fn _ _ _ hok).2 pr hfil
        refine ⟨sd, hgd, ?_⟩
        rw [← h.1]
        exact hname

/-- Witness for C5: on the one-partition root tree the returned root
identifier `-` is the last-device identifier of the root leaf's chain. -/
theorem resolve_root_detection_witness :
    ∃ sd, getDevices [Entity.pTable c5Tree, Entity.pPart ⟨0, 1024, .filesystem "ext4" "/"⟩,
        Entity.pPayload (.filesystem "ext4" "/")] "disk.img" false = some sd ∧
      "-" = sd.2 :=
  (resolve_root_detection "disk.img" c5Tree).2 "-"
    [⟨"org.osbuild.ext4", "-", "-", "/"⟩]
    [("-", NewLoopbackDevice "disk.img" 0 2 false)]
    (Entity.pPayload (.filesystem "ext4" "/"),
      [Entity.pTable c5Tree, Entity.pPart ⟨0, 1024, .filesystem "ext4" "/"⟩,
        Entity.pPayload (.filesystem "ext4" "/")])
    (by rfl) (by rfl)

/-! ## C3: mount ordering -/

/-- `x` is a strict ancestor directory of `y`: either `x` is the root
`/` and `y` a longer absolute path, or `y` extends `x` with a `/`
separator and a remainder. -/
def dirAncestor (x y : String) : Prop :=
  (x = "/" ∧ ∃ r, r ≠ "" ∧ y = "/" ++ r) ∨ (x ≠ "/" ∧ ∃ r, y = x ++ "/" ++ r)

/-- A list is lexicographically below any of its strict extensions. -/
theorem lex_append_cons (l t : List Char) (c : Char) :
    List.Lex (· < ·) l (l ++ c :: t) := by
  induction l with
  | nil => exact List.Lex.nil
  | cons a as ih => exact List.Lex.cons ih

/-- A nonempty string has a nonempty character list. -/
theorem data_ne_nil_of_ne_empty (r : String) (h : r ≠ "") : r.data ≠ [] := by
  intro hc
  exact h (String.ext (hc.trans rfl))

/-- A strict ancestor directory path is lexicographically smaller. -/
theorem dirAncestor_lt (x y : String) (h : dirAncestor x y) : x < y := by
  rw [String.lt_iff_toList_lt]
  rcases h with ⟨hx, r, hr, hy⟩ | ⟨hx, r, hy⟩
  · subst hx
    subst hy
    show List.Lex (· < ·) "/".toList (("/" ++ r).toList)
    have : ("/" ++ r).toList = '/' :: r.data := by
      show ("/" ++ r).data = '/' :: r.data
      rw [String.data_append]
      rfl
    rw [this]
    cases hd : r.data with
    | nil => exact absurd hd (data_ne_nil_of_ne_empty r hr)
    | cons c t =>
        exact lex_append_cons ['/'] t c
  · subst hy
    show List.Lex (· < ·) x.toList ((x ++ "/" ++ r).toList)
    have : (x ++ "/" ++ r).toList = x.data ++ '/' :: r.data := by
      show (x ++ "/" ++ r).data = x.data ++ '/' :: r.data
      rw [String.data_append, String.data_append]
      simp
    rw [this]
    exact lex_append_cons x.data r.data '/'

/-- The boolean comparison decides exactly the lexicographic order on
character lists. -/
theorem listCharLtb_iff_lex :
    ∀ (x y : List Char), listCharLtb x y = true ↔ List.Lex (· < ·) x y := by
  intro x
  induction x with
  | nil =>
      intro y
      cases y with
      | nil =>
          simp only [listCharLtb]
          constructor
          · intro h
            cases h
          · intro h
            cases h
      | cons b bs =>
          simp only [listCharLtb]
          exact ⟨fun _ => List.Lex.nil, fun _ => trivial⟩
  | cons a as ih =>
      intro y
      cases y with
      | nil =>
          simp only [listCharLtb]
          constructor
          · intro h
            cases h
          · intro h
            cases h
      | cons b bs =>
          simp only [listCharLtb]
          by_cases hab : a.toNat < b.toNat
          · rw [if_pos hab]
            refine ⟨fun _ => List.Lex.rel hab, fun _ => rfl⟩
          · rw [if_neg hab]
            by_cases hba : b.toNat < a.toNat
            · rw [if_pos hba]
              constructor
              · intro h
                cases h
              · intro h
                exfalso
                cases h with
                | cons h' => exact absurd hba (lt_irrefl _)
                | rel h' => exact hab h'
            · rw [if_neg hba]
              have hEq : a = b := by
                have h : a.toNat = b.toNat :=
                  Nat.le_antisymm (Nat.not_lt.mp hba) (Nat.not_lt.mp hab)
                rcases a with ⟨⟨⟨va, hva⟩⟩, hca⟩
                rcases b with ⟨⟨⟨vb, hvb⟩⟩, hcb⟩
                simp [Char.toNat, UInt32.toNat] at h
                subst h
                rfl
              subst hEq
              rw [ih bs]
              constructor
              · intro h
                exact List.Lex.cons h
              · intro h
                cases h with
                | cons h' => exact h'
                | rel h' => exact absurd h' (lt_irrefl a)

/-- The relation handed to the sort is exactly the non-strict
lexicographic string order on targets. -/
theorem mountTargetLe_iff (a b : Mount) : mountTargetLe a b ↔ a.target ≤ b.target := by
  unfold mountTargetLe
  rw [← not_lt]
  rw [String.lt_iff_toList_lt]
  have : (b.target.toList < a.target.toList) = List.Lex (· < ·) b.target.data a.target.data :=
    rfl
  rw [this, ← listCharLtb_iff_lex]
  cases listCharLtb b.target.data a.target.data with
  | true => simp
  | false => simp

instance : IsTotal Mount mountTargetLe :=
  ⟨fun a b => by
    rw [mountTargetLe_iff, mountTargetLe_iff]
    exact le_total a.target b.target⟩

instance : IsTrans Mount mountTargetLe :=
  ⟨fun a b c hab hbc => by
    rw [mountTargetLe_iff] at *
    exact le_trans hab hbc⟩

/-- C3.  A successful resolve returns its mount records sorted by
target path in plain lexicographic string order (the sort relation is
proved to coincide with the standard string order); consequently no
record's target is a strict ancestor directory of an earlier record's
target (ancestors always precede descendants). -/
theorem resolve_mounts_sorted (fn : String) (t : PTData) (r : String) (ms : List Mount)
    (ds : List (String × Device))
    (h : genMountsDevicesFromPt fn t = some (r, ms, ds, none)) :
    ms.Pairwise (fun a b => a.target ≤ b.target) ∧
    ms.Pairwise (fun a b => ¬ dirAncestor b.target a.target) := by
  have hms : ∃ l : List Mount, ms = List.insertionSort mountTargetLe l := by
    unfold genMountsDevicesFromPt at h
    split at h
    · cases h
    · simp only [Option.some.injEq, Prod.mk.injEq] at h
      exact absurd h.2.2.2 (by simp)
    · split at h
      · simp only [Option.some.injEq, Prod.mk.injEq] at h
        exact absurd h.2.2.2 (by simp)
      · simp only [Option.some.injEq, Prod.mk.injEq] at h
        exact ⟨_, h.2.1.symm⟩
  obtain ⟨l, hl⟩ := hms
  subst hl
  have hsorted : (List.insertionSort mountTargetLe l).Pairwise mountTargetLe :=
    List.sorted_insertionSort mountTargetLe l
  have hle : (List.insertionSort mountTargetLe l).Pairwise
      (fun a b => a.target ≤ b.target) :=
    hsorted.imp (fun hab => (mountTargetLe_iff _ _).mp hab)
  refine ⟨hle, hle.imp ?_⟩
  intro a b hab hanc
  exact not_le_of_lt (dirAncestor_lt b.target a.target hanc) hab

/-- The specification's two-partition resolve scenario. -/
def c3Tree : PTData :=
  ⟨512, [⟨1048576, 1073741824, .filesystem "ext4" "/"⟩,
         ⟨1074790400, 209715200, .filesystem "vfat" "/boot/efi"⟩]⟩

/-- Witness for C3 at the two-partition scenario tree. -/
theorem resolve_mounts_sorted_witness :
    ([⟨"org.osbuild.ext4", "-", "-", "/"⟩,
      ⟨"org.osbuild.fat", "boot-efi", "boot-efi", "/boot/efi"⟩] : List Mount).Pairwise
        (fun a b => a.target ≤ b.target) ∧
    ([⟨"org.osbuild.ext4", "-", "-", "/"⟩,
      ⟨"org.osbuild.fat", "boot-efi", "boot-efi", "/boot/efi"⟩] : List Mount).Pairwise
        (fun a b => ¬ dirAncestor b.target a.target) :=
  resolve_mounts_sorted "disk.img" c3Tree "-"
    [⟨"org.osbuild.ext4", "-", "-", "/"⟩,
     ⟨"org.osbuild.fat", "boot-efi", "boot-efi", "/boot/efi"⟩]
    [("-", NewLoopbackDevice "disk.img" 2048 2097152 false),
     ("boot-efi", NewLoopbackDevice "disk.img" 2099200 409600 false)]
    (by rfl)

/-! ## C9: segment-level invertibility of pathEscape -/

/-- The per-character effect of the composed `\`-then-`-` escaping. -/
def escStep (c : Char) : List Char :=
  if c = '\\' then ['\\', 'x', '5', 'c']
  else if c = '-' then ['\\', 'x', '2', 'd']
  else [c]

/-- The per-character effect of the full escape pipeline (`\`, `-`, then
`/` to `-`). -/
def escStep2 (c : Char) : List Char :=
  if c = '\\' then ['\\', 'x', '5', 'c']
  else if c = '-' then ['\\', 'x', '2', 'd']
  else if c = '/' then ['-']
  else [c]

/-- The concatenation of `escStep` over a character list. -/
def escAll : List Char → List Char
  | [] => []
  | c :: rest => escStep c ++ escAll rest

/-- The concatenation of `escStep2` over a character list. -/
def escAll2 : List Char → List Char
  | [] => []
  | c :: rest => escStep2 c ++ escAll2 rest

/-- `replaceChar` distributes over concatenation. -/
theorem replaceChar_append (c : Char) (r l₁ l₂ : List Char) :
    replaceChar c r (l₁ ++ l₂) = replaceChar c r l₁ ++ replaceChar c r l₂ := by
  induction l₁ with
  | nil => rfl
  | cons x xs ih =>
      simp only [List.cons_append, replaceChar, List.append_eq, ih, List.append_assoc]

/-- The two character replacements compose to the per-character escape:
`\x5c` introduced by the first contains no `-`, so the second touches
only original `-` characters. -/
theorem replace_backslash_dash (l : List Char) :
    replaceChar '-' ['\\', 'x', '2', 'd'] (replaceChar '\\' ['\\', 'x', '5', 'c'] l) =
      escAll l := by
  induction l with
  | nil => rfl
  | cons x xs ih =>
      simp only [replaceChar]
      by_cases h1 : x = '\\'
      · subst h1
        rw [if_pos rfl, replaceChar_append, ih]
        have : replaceChar '-' ['\\', 'x', '2', 'd'] ['\\', 'x', '5', 'c'] =
            ['\\', 'x', '5', 'c'] := by decide
        rw [this]
        simp [escAll, escStep]
      · rw [if_neg h1, replaceChar_append, ih]
        by_cases h2 : x = '-'
        · subst h2
          have : replaceChar '-' ['\\', 'x', '2', 'd'] ['-'] = ['\\', 'x', '2', 'd'] := by
            decide
          rw [this]
          simp [escAll, escStep]
        · have : replaceChar '-' ['\\', 'x', '2', 'd'] [x] = [x] := by
            simp [replaceChar, h2]
          rw [this]
          simp [escAll, escStep, h1, h2]

/-- Replacing the remaining `/` separators turns the two-character
escape into the full pipeline: escape forms contain no `/`. -/
theorem replace_slash (l : List Char) :
    replaceChar '/' ['-'] (escAll l) = escAll2 l := by
  induction l with
  | nil => rfl
  | cons x xs ih =>
      simp only [escAll, replaceChar_append, ih, escAll2]
      congr 1
      by_cases h1 : x = '\\'
      · subst h1
        decide
      · by_cases h2 : x = '-'
        · subst h2
          decide
        · by_cases h3 : x = '/'
          · subst h3
            decide
          · simp [escStep, escStep2, replaceChar, h1, h2, h3]

/-- Turning separators back into `/` recovers the two-character escape:
escaped output contains `-` exactly where the original had `/`. -/
theorem unreplace_slash (l : List Char) :
    replaceChar '-' ['/'] (escAll2 l) = escAll l := by
  induction l with
  | nil => rfl
  | cons x xs ih =>
      simp only [escAll2, replaceChar_append, ih, escAll]
      congr 1
      by_cases h1 : x = '\\'
      · subst h1
        decide
      · by_cases h2 : x = '-'
        · subst h2
          decide
        · by_cases h3 : x = '/'
          · subst h3
            decide
          · simp [escStep, escStep2, replaceChar, h1, h2, h3]

mutual

/-- The decoder of the `\`/`-` escape: `\x5c` decodes to `\`, `\x2d` to
`-`, anything else passes through (`escDecodeTail` handles what follows
a backslash). -/
def escDecode : List Char → List Char
  | [] => []
  | c :: rest =>
      if c = '\\' then escDecodeTail rest
      else c :: escDecode rest
termination_by l => 2 * l.length

/-- The decoder state after a backslash. -/
def escDecodeTail : List Char → List Char
  | 'x' :: '5' :: 'c' :: r => '\\' :: escDecode r
  | 'x' :: '2' :: 'd' :: r => '-' :: escDecode r
  | other => '\\' :: escDecode other
termination_by l => 2 * l.length + 1

end

/-- The decoder inverts the per-character escape. -/
theorem escDecode_escAll (l : List Char) : escDecode (escAll l) = l := by
  induction l with
  | nil => simp [escAll, escDecode]
  | cons x xs ih =>
      by_cases h1 : x = '\\'
      · subst h1
        show escDecode (escStep '\\' ++ escAll xs) = '\\' :: xs
        have hform : escStep '\\' ++ escAll xs = '\\' :: 'x' :: '5' :: 'c' :: escAll xs := by
          simp [escStep]
        rw [hform]
        simp [escDecode, escDecodeTail, ih]
      · by_cases h2 : x = '-'
        · subst h2
          show escDecode (escStep '-' ++ escAll xs) = '-' :: xs
          have hform : escStep '-' ++ escAll xs = '\\' :: 'x' :: '2' :: 'd' :: escAll xs := by
            simp [escStep]
          rw [hform]
          simp [escDecode, escDecodeTail, ih]
        · show escDecode (escStep x ++ escAll xs) = x :: xs
          have hform : escStep x ++ escAll xs = x :: escAll xs := by
            simp [escStep, h1, h2]
          rw [hform]
          simp [escDecode, h1, ih]

/-- The full escape pipeline is injective on character lists. -/
theorem escAll2_injective (l₁ l₂ : List Char) (h : escAll2 l₁ = escAll2 l₂) : l₁ = l₂ := by
  have h1 := congrArg (replaceChar '-' ['/']) h
  rw [unreplace_slash, unreplace_slash] at h1
  have h2 := congrArg escDecode h1
  rw [escDecode_escAll, escDecode_escAll] at h2
  exact h2

/-- The escaped form of a non-root path, at the character level. -/
theorem pathEscape_data (p : String) (h0 : p ≠ "") (h1 : p ≠ "/") :
    (pathEscape p).data = escAll2 (trimSlashes p.data) := by
  unfold pathEscape
  rw [if_neg ?hc]
  case hc =>
    push_neg
    refine ⟨?_, h1⟩
    intro hlen
    exact h0 (String.ext (List.length_eq_zero.mp hlen))
  show replaceChar '/' ['-'] (replaceChar '-' ['\\', 'x', '2', 'd']
      (replaceChar '\\' ['\\', 'x', '5', 'c'] (trimSlashes p.data))) =
    escAll2 (trimSlashes p.data)
  rw [replace_backslash_dash, replace_slash]

/-- Splitting a character list on `/`. -/
def splitOnSlash : List Char → List (List Char)
  | [] => [[]]
  | c :: rest =>
      if c = '/' then [] :: splitOnSlash rest
      else
        match splitOnSlash rest with
        | [] => [[c]]
        | s :: ss => (c :: s) :: ss

/-- The path-segment sequence of a mountpoint: its trimmed character
list split on `/`. -/
def segments (p : String) : List (List Char) :=
  splitOnSlash (trimSlashes p.data)

/-- C9.  `pathEscape` maps `""` and `"/"` to `"-"`, and on non-root
paths it is injective at the segment level: two paths with different
segment sequences have different escapes. -/
theorem pathEscape_segment_injective :
    pathEscape "" = "-" ∧ pathEscape "/" = "-" ∧
    ∀ p q : String, p ≠ "" → p ≠ "/" → q ≠ "" → q ≠ "/" →
      segments p ≠ segments q → pathEscape p ≠ pathEscape q := by
  refine ⟨by decide, by decide, ?_⟩
  intro p q hp0 hp1 hq0 hq1 hseg hesc
  apply hseg
  unfold segments
  have htrim : trimSlashes p.data = trimSlashes q.data := by
    apply escAll2_injective
    rw [← pathEscape_data p hp0 hp1, ← pathEscape_data q hq0 hq1, hesc]
  rw [htrim]

/-- Witness for C9: paths `/a/b` and `/a-b` have different segments and
different escapes. -/
theorem pathEscape_segment_injective_witness :
    pathEscape "/a/b" ≠ pathEscape "/a-b" :=
  pathEscape_segment_injective.2.2 "/a/b" "/a-b" (by decide) (by decide) (by decide)
    (by decide) (by decide)

/-! ## C6: the device chain builder -/

/-- Whether a traversal node is the partition table. -/
def Entity.isPTable : Entity → Bool
  | .pTable _ => true
  | _ => false

/-- Whether a traversal node is a payload-entity node (payload or
logical volume) — the only node kinds below a partition. -/
def Entity.isPayloadish : Entity → Bool
  | .pPayload _ => true
  | .pLV _ _ _ => true
  | _ => false

/-- A path suffix containing only payload-entity nodes. -/
def Payloadish (l : List Entity) : Prop :=
  ∀ e ∈ l, Entity.isPayloadish e = true

/-- The emission trace of `getDevices`: the `(identifier, descriptor)`
pairs in emission order, threading the active sector size and the parent
identifier exactly as `getDevicesGo` does. -/
def emitTrace (fn : String) (lock : Bool) :
    List Entity → Option Nat → String → Option (List (String × Device))
  | [], _, _ => some []
  | .pTable t :: rest, _, parent => emitTrace fn lock rest (some t.sectorSize) parent
  | .pPart pd :: rest, pt?, parent =>
      match pt? with
      | none => none
      | some ss =>
        match deviceNameP pd.payload with
        | none => none
        | some name =>
            (emitTrace fn lock rest (some ss) name).map
              (fun tr => (name, NewLoopbackDevice fn (bytesToSectors ss pd.start)
                (bytesToSectors ss pd.size) lock) :: tr)
  | .pPayload (.luks d inner) :: rest, pt?, parent =>
      match deviceNameP inner with
      | none => none
      | some name =>
          (emitTrace fn lock rest pt? name).map
            (fun tr => (name, NewLUKS2Device parent d.passphrase) :: tr)
  | .pLV lvn _ pl :: rest, pt?, parent =>
      match deviceNameP pl with
      | none => none
      | some name =>
          (emitTrace fn lock rest pt? name).map
            (fun tr => (name, NewLVM2LVDevice parent lvn) :: tr)
  | .pPayload (.filesystem _ _) :: rest, pt?, parent => emitTrace fn lock rest pt? parent
  | .pPayload (.volgroup _ _) :: rest, pt?, parent => emitTrace fn lock rest pt? parent

/-- Inserting a trace into a device map, in order. -/
def foldInsert (m : List (String × Device)) : List (String × Device) → List (String × Device)
  | [] => m
  | (n, d) :: tr => foldInsert (insertD m n d) tr

/-- The identifier of the last emission, with a default for the empty
trace. -/
def lastNameD : List (String × Device) → String → String
  | [], dflt => dflt
  | (n, _) :: tr, _ => lastNameD tr n

/-- `getDevicesGo` is the map-fold of the emission trace, and its second
result is the last emitted identifier. -/
theorem getDevicesGo_eq_emitTrace (fn : String) (lock : Bool) :
    ∀ (l : List Entity) (pt? : Option Nat) (m : List (String × Device)) (parent : String),
      getDevicesGo fn lock l pt? m parent =
        (emitTrace fn lock l pt? parent).map
          (fun tr => (foldInsert m tr, lastNameD tr parent)) := by
  intro l
  induction l with
  | nil => intro pt? m parent; rfl
  | cons e rest ih =>
      intro pt? m parent
      cases e with
      | pTable t =>
          simp only [getDevicesGo, emitTrace]
          exact ih _ _ _
      | pPart pd =>
          cases pt? with
          | none => rfl
          | some ss =>
              simp only [getDevicesGo, emitTrace]
              cases hn : deviceNameP pd.payload with
              | none => rfl
              | some name =>
                  dsimp only
                  rw [ih]
                  cases htr : emitTrace fn lock rest (some ss) name with
                  | none => rfl
                  | some tr => rfl
      | pPayload p =>
          cases p with
          | filesystem fs mnt =>
              simp only [getDevicesGo, emitTrace]
              exact ih _ _ _
          | volgroup n lvs =>
              simp only [getDevicesGo, emitTrace]
              exact ih _ _ _
          | luks d inner =>
              simp only [getDevicesGo, emitTrace]
              cases hn : deviceNameP inner with
              | none => rfl
              | some name =>
                  dsimp only
                  rw [ih]
                  cases htr : emitTrace fn lock rest pt? name with
                  | none => rfl
                  | some tr => rfl
      | pLV lvn sz pl =>
          simp only [getDevicesGo, emitTrace]
          cases hn : deviceNameP pl with
          | none => rfl
          | some name =>
              dsimp only
              rw [ih]
              cases htr : emitTrace fn lock rest pt? name with
              | none => rfl
              | some tr => rfl

/-- Parent chaining of a trace, starting from a given parent
identifier: each descriptor's parent field is the previous emission's
identifier. -/
def chainedFrom : String → List (String × Device) → Prop
  | _, [] => True
  | p, (n, d) :: tr => d.parent = p ∧ chainedFrom n tr

/-- Parent chaining of a whole trace: from the second emission on, each
descriptor's parent field is the identifier of the previous emission. -/
def chained : List (String × Device) → Prop
  | [] => True
  | (n, _) :: tr => chainedFrom n tr

/-- On a payload-only path suffix, the trace is chained from the
incoming parent identifier. -/
theorem emitTrace_payloadish_chain (fn : String) (lock : Bool) :
    ∀ (l : List Entity) (pt? : Option Nat) (par : String) (tr : List (String × Device)),
      Payloadish l → emitTrace fn lock l pt? par = some tr → chainedFrom par tr := by
  intro l
  induction l with
  | nil =>
      intro pt? par tr _ h
      simp only [emitTrace, Option.some.injEq] at h
      rw [← h]
      trivial
  | cons e rest ih =>
      intro pt? par tr hpl h
      have hp := hpl e (List.mem_cons_self e rest)
      have hrest : Payloadish rest := fun x hx => hpl x (List.mem_cons_of_mem e hx)
      cases e with
      | pTable t => simp [Entity.isPayloadish] at hp
      | pPart pd => simp [Entity.isPayloadish] at hp
      | pPayload p =>
          cases p with
          | filesystem fs mnt =>
              simp only [emitTrace] at h
              exact ih pt? par tr hrest h
          | volgroup n lvs =>
              simp only [emitTrace] at h
              exact ih pt? par tr hrest h
          | luks d inner =>
              simp only [emitTrace] at h
              cases hn : deviceNameP inner with
              | none => rw [hn] at h; cases h
              | some name =>
                  rw [hn] at h
                  dsimp only at h
                  cases htr : emitTrace fn lock rest pt? name with
                  | none => rw [htr] at h; cases h
                  | some tr' =>
                      rw [htr] at h
                      simp only [Option.map_some', Option.some.injEq] at h
                      rw [← h]
                      exact ⟨rfl, ih pt? name tr' hrest htr⟩
      | pLV lvn sz pl =>
          simp only [emitTrace] at h
          cases hn : deviceNameP pl with
          | none => rw [hn] at h; cases h
          | some name =>
              rw [hn] at h
              dsimp only at h
              cases htr : emitTrace fn lock rest pt? name with
              | none => rw [htr] at h; cases h
              | some tr' =>
                  rw [htr] at h
                  simp only [Option.map_some', Option.some.injEq] at h
                  rw [← h]
                  exact ⟨rfl, ih pt? name tr' hrest htr⟩

mutual

/-- Every pair the payload walk produces extends the base path by a
payload-only suffix. -/
theorem walkP_shape (p : Payload) (base : List Entity) (pr : Entity × List Entity)
    (hpr : pr ∈ walkP p base) : ∃ suf, pr.2 = base ++ suf ∧ Payloadish suf := by
  cases p with
  | filesystem fs mnt =>
      simp only [walkP, List.mem_singleton] at hpr
      refine ⟨[.pPayload (.filesystem fs mnt)], ?_, ?_⟩
      · rw [hpr]
      · intro e he
        simp only [List.mem_singleton] at he
        rw [he]
        rfl
  | luks d inner =>
      simp only [walkP, List.mem_cons] at hpr
      rcases hpr with hpr | hpr
      · refine ⟨[.pPayload (.luks d inner)], ?_, ?_⟩
        · rw [hpr]
        · intro e he
          simp only [List.mem_singleton] at he
          rw [he]
          rfl
      · obtain ⟨suf, hsuf, hpl⟩ :=
          walkP_shape inner (base ++ [.pPayload (.luks d inner)]) pr hpr
        refine ⟨.pPayload (.luks d inner) :: suf, ?_, ?_⟩
        · rw [hsuf, List.append_assoc]
          rfl
        · intro e he
          rcases List.mem_cons.mp he with he | he
          · rw [he]
            rfl
          · exact hpl e he
  | volgroup n lvs =>
      simp only [walkP, List.mem_cons] at hpr
      rcases hpr with hpr | hpr
      · refine ⟨[.pPayload (.volgroup n lvs)], ?_, ?_⟩
        · rw [hpr]
        · intro e he
          simp only [List.mem_singleton] at he
          rw [he]
          rfl
      · obtain ⟨suf, hsuf, hpl⟩ :=
          walkLVs_shape lvs (base ++ [.pPayload (.volgroup n lvs)]) pr hpr
        refine ⟨.pPayload (.volgroup n lvs) :: suf, ?_, ?_⟩
        · rw [hsuf, List.append_assoc]
          rfl
        · intro e he
          rcases List.mem_cons.mp he with he | he
          · rw [he]
            rfl
          · exact hpl e he

/-- Every pair the logical-volume walk produces extends the base path by
a payload-only suffix. -/
theorem walkLVs_shape (lvs : List (String × Nat × Payload)) (base : List Entity)
    (pr : Entity × List Entity) (hpr : pr ∈ walkLVs lvs base) :
    ∃ suf, pr.2 = base ++ suf ∧ Payloadish suf := by
  cases lvs with
  | nil => simp [walkLVs] at hpr
  | cons lv rest =>
      rcases lv with ⟨n, sz, pl⟩
      simp only [walkLVs, List.mem_append, List.mem_cons] at hpr
      rcases hpr with (hpr | hpr) | hpr
      · refine ⟨[.pLV n sz pl], ?_, ?_⟩
        · rw [hpr]
        · intro e he
          simp only [List.mem_singleton] at he
          rw [he]
          rfl
      · obtain ⟨suf, hsuf, hpl⟩ := walkP_shape pl (base ++ [.pLV n sz pl]) pr hpr
        refine ⟨.pLV n sz pl :: suf, ?_, ?_⟩
        · rw [hsuf, List.append_assoc]
          rfl
        · intro e he
          rcases List.mem_cons.mp he with he | he
          · rw [he]
            rfl
          · exact hpl e he
      · exact walkLVs_shape rest base pr hpr

end

/-- Every pair the partition walk produces sits on a path of the form
`base ++ partition :: payload-only suffix`. -/
theorem walkParts_shape :
    ∀ (ps : List PartitionData) (base : List Entity) (pr : Entity × List Entity),
      pr ∈ walkParts ps base →
      ∃ pd tail, pr.2 = base ++ .pPart pd :: tail ∧ Payloadish tail := by
  intro ps
  induction ps with
  | nil =>
      intro base pr hpr
      simp [walkParts] at hpr
  | cons pd rest ih =>
      intro base pr hpr
      simp only [walkParts, walkPart, List.mem_append, List.mem_cons] at hpr
      rcases hpr with (hpr | hpr) | hpr
      · refine ⟨pd, [], ?_, ?_⟩
        · rw [hpr]
        · intro e he
          cases he
      · obtain ⟨suf, hsuf, hpl⟩ := walkP_shape pd.payload (base ++ [.pPart pd]) pr hpr
        refine ⟨pd, suf, ?_, hpl⟩
        rw [hsuf, List.append_assoc]
        rfl
      · exact ih base pr hpr

/-- Without a partition table earlier in the path, reaching a partition
is the fatal programming error (modelled `none`), whatever else the
prefix held. -/
theorem getDevicesGo_no_table (fn : String) (lock : Bool) (pd : PartitionData)
    (post : List Entity) :
    ∀ (pre : List Entity) (m : List (String × Device)) (parent : String),
      (∀ e ∈ pre, Entity.isPTable e = false) →
      getDevicesGo fn lock (pre ++ .pPart pd :: post) none m parent = none := by
  intro pre
  induction pre with
  | nil => intro m parent _; rfl
  | cons e rest ih =>
      intro m parent hno
      have hrest : ∀ x ∈ rest, Entity.isPTable x = false := fun x hx =>
        hno x (List.mem_cons_of_mem e hx)
      cases e with
      | pTable t =>
          have := hno (.pTable t) (List.mem_cons_self _ _)
          simp [Entity.isPTable] at this
      | pPart p => rfl
      | pPayload p =>
          cases p with
          | filesystem fs mnt =>
              simp only [List.cons_append, getDevicesGo]
              exact ih m parent hrest
          | volgroup n lvs =>
              simp only [List.cons_append, getDevicesGo]
              exact ih m parent hrest
          | luks d inner =>
              simp only [List.cons_append, getDevicesGo]
              cases hn : deviceNameP inner with
              | none => rfl
              | some name =>
                  dsimp only
                  exact ih _ name hrest
      | pLV lvn sz pl =>
          simp only [List.cons_append, getDevicesGo]
          cases hn : deviceNameP pl with
          | none => rfl
          | some name =>
              dsimp only
              exact ih _ name hrest

/-- C6.  The contract of the device chain builder on every root-to-node
path the traversal walks: a partition with no table before it is fatal;
on success the device map is the fold of the emission trace and the
second return value the last emitted identifier; from the second
emission on, each descriptor's parent is the previous identifier; and
the path's partition emits a loopback descriptor named by the name
resolver applied to its payload, carrying the table's byte-to-sector
conversion of its start and size, the backing filename and the lock
flag. -/
theorem getDevices_chain_contract :
    (∀ (fn : String) (lock : Bool) (pre : List Entity) (pd : PartitionData)
        (post : List Entity),
      (∀ e ∈ pre, Entity.isPTable e = false) →
      getDevices (pre ++ .pPart pd :: post) fn lock = none) ∧
    (∀ (t : PTData) (fn : String) (lock : Bool) (pr : Entity × List Entity),
      pr ∈ walkPT t →
      ∀ (m : List (String × Device)) (last : String),
        getDevices pr.2 fn lock = some (m, last) →
        ∃ tr, emitTrace fn lock pr.2 none "" = some tr ∧
          m = foldInsert [] tr ∧
          last = lastNameD tr "" ∧
          chained tr ∧
          ∀ pd, Entity.pPart pd ∈ pr.2 →
            ∃ name, deviceNameP pd.payload = some name ∧
              (name, NewLoopbackDevice fn (bytesToSectors t.sectorSize pd.start)
                (bytesToSectors t.sectorSize pd.size) lock) ∈ tr) := by
  constructor
  · intro fn lock pre pd post hno
    exact getDevicesGo_no_table fn lock pd post pre [] "" hno
  · intro t fn lock pr hpr m last hgd
    unfold getDevices at hgd
    rw [getDevicesGo_eq_emitTrace] at hgd
    cases htr : emitTrace fn lock pr.2 none "" with
    | none => rw [htr] at hgd; cases hgd
    | some tr =>
        rw [htr] at hgd
        simp only [Option.map_some', Option.some.injEq, Prod.mk.injEq] at hgd
        refine ⟨tr, rfl, hgd.1.symm, hgd.2.symm, ?_, ?_⟩
        all_goals
          simp only [walkPT, List.mem_cons] at hpr
        · rcases hpr with hpr | hpr
          · rw [hpr] at htr
            simp only [emitTrace, Option.some.injEq] at htr
            rw [← htr]
            trivial
          · obtain ⟨pd', tail, hpath, hplt⟩ := walkParts_shape t.partitions [.pTable t] pr hpr
            rw [hpath] at htr
            simp only [List.cons_append, List.nil_append, emitTrace] at htr
            cases hn : deviceNameP pd'.payload with
            | none => rw [hn] at htr; cases htr
            | some name =>
                rw [hn] at htr
                dsimp only at htr
                cases htail : emitTrace fn lock tail (some t.sectorSize) name with
                | none => rw [htail] at htr; cases htr
                | some tr' =>
                    rw [htail] at htr
                    simp only [Option.map_some', Option.some.injEq] at htr
                    rw [← htr]
                    show chainedFrom name tr'
                    exact emitTrace_payloadish_chain fn lock tail (some t.sectorSize)
                      name tr' hplt htail
        · intro pd hmem
          rcases hpr with hpr | hpr
          · rw [hpr] at hmem
            simp at hmem
          · obtain ⟨pd', tail, hpath, hplt⟩ := walkParts_shape t.partitions [.pTable t] pr hpr
            rw [hpath] at htr hmem
            simp only [List.cons_append, List.nil_append, emitTrace] at htr
            cases hn : deviceNameP pd'.payload with
            | none => rw [hn] at htr; cases htr
            | some name =>
                rw [hn] at htr
                dsimp only at htr
                cases htail : emitTrace fn lock tail (some t.sectorSize) name with
                | none => rw [htail] at htr; cases htr
                | some tr' =>
                    rw [htail] at htr
                    simp only [Option.map_some', Option.some.injEq] at htr
                    simp only [List.cons_append, List.nil_append, List.mem_cons] at hmem
                    rcases hmem with hmem | hmem | hmem
                    · cases hmem
                    · have hpd : pd = pd' := by
                        injection hmem
                      subst hpd
                      refine ⟨name, hn, ?_⟩
                      rw [← htr]
                      exact List.mem_cons_self _ _
                    · have := hplt (.pPart pd) hmem
                      simp [Entity.isPayloadish] at this

/-- Witness for C6 at the one-partition root tree. -/
theorem getDevices_chain_contract_witness :
    ∃ tr, emitTrace "disk.img" false
        [Entity.pTable c5Tree, Entity.pPart ⟨0, 1024, .filesystem "ext4" "/"⟩,
         Entity.pPayload (.filesystem "ext4" "/")] none "" = some tr ∧
      [("-", NewLoopbackDevice "disk.img" 0 2 false)] = foldInsert [] tr ∧
      "-" = lastNameD tr "" ∧
      chained tr ∧
      ∀ pd, Entity.pPart pd ∈
          [Entity.pTable c5Tree, Entity.pPart ⟨0, 1024, .filesystem "ext4" "/"⟩,
           Entity.pPayload (.filesystem "ext4" "/")] →
        ∃ name, deviceNameP pd.payload = some name ∧
          (name, NewLoopbackDevice "disk.img" (bytesToSectors c5Tree.sectorSize pd.start)
            (bytesToSectors c5Tree.sectorSize pd.size) false) ∈ tr :=
  getDevices_chain_contract.2 c5Tree "disk.img" false
    (Entity.pPayload (.filesystem "ext4" "/"),
      [Entity.pTable c5Tree, Entity.pPart ⟨0, 1024, .filesystem "ext4" "/"⟩,
       Entity.pPayload (.filesystem "ext4" "/")])
    (by
      show _ ∈ walkPT c5Tree
      have h : walkPT c5Tree =
          [(Entity.pTable c5Tree, [Entity.pTable c5Tree]),
           (Entity.pPart ⟨0, 1024, .filesystem "ext4" "/"⟩,
             [Entity.pTable c5Tree, Entity.pPart ⟨0, 1024, .filesystem "ext4" "/"⟩]),
           (Entity.pPayload (.filesystem "ext4" "/"),
             [Entity.pTable c5Tree, Entity.pPart ⟨0, 1024, .filesystem "ext4" "/"⟩,
              Entity.pPayload (.filesystem "ext4" "/")])] := rfl
      rw [h]
      exact List.mem_cons_of_mem _ (List.mem_cons_of_mem _ (List.mem_cons_self _ _)))
    [("-", NewLoopbackDevice "disk.img" 0 2 false)] "-" (by rfl)
